import Mathlib

/-!
Verification of the job-staging utilities of `lwr/util/__init__.py`.

The Python module manipulates filesystem paths as strings through the
`posixpath` / `os.path` API and performs a small number of filesystem
effects (`os.makedirs`, `os.mkdir`, `shutil.move`, `os.rename`, plain
file reads and writes).  The embedding below models

  * paths as Lean `String`s (lists of characters), with the relevant
    `posixpath` operations (`join`, `split`, `basename`, `dirname`,
    `normpath`, `abspath`, `commonprefix`) ported from the CPython
    sources component by component;
  * the directory structure of the filesystem as a list of existing
    directory paths (`DirState`), enough to observe which directories
    `get_mapped_file` creates;
  * file contents as association lists from path to byte list
    (`FileState`), enough to observe the reads, writes, removals and
    renames performed by `JobDirectory` and `atomicish_move`.

The host path convention is POSIX (the `local_path_module` parameter of
the source is instantiated with `posixpath`, the default on the platform
under consideration).  `os.getcwd()` is modelled as an explicit `cwd`
argument threaded through the functions that call `abspath`.
-/

/-- True when the path begins with a slash (ported from `posixpath.isabs`). -/
def isAbsolute (p : String) : Bool :=
  match p.data with
  | c :: _ => c == '/'
  | [] => false

/-- True when the path ends with a slash (`path.endswith('/')` in CPython's join). -/
def lastIsSlash (l : List Char) : Bool :=
  match l.reverse with
  | c :: _ => c == '/'
  | [] => false

/-- Ported from `posixpath.join(a, b)`: if `b` is absolute it replaces `a`;
otherwise `b` is appended, inserting a separator unless `a` is empty or
already ends with one. -/
def posixpath_join (a b : String) : String :=
  if isAbsolute b then b
  else if a.data = [] ∨ lastIsSlash a.data then ⟨a.data ++ b.data⟩
  else ⟨a.data ++ '/' :: b.data⟩

/-- Ported from `posixpath.join(*parts)` for a non-empty argument list: the
fold of two-argument join.  (CPython raises `TypeError` on an empty
argument list; the `[]` case below is never reached by the callers
modelled here.) -/
def posixpath_join_list : List String → String
  | [] => ""
  | a :: rest => rest.foldl posixpath_join a

/-- The tail component of `posixpath.split`: everything after the last slash. -/
def posixSplitTail (l : List Char) : List Char :=
  (l.reverse.takeWhile (fun c => !(c == '/'))).reverse

/-- The head component of `posixpath.split`: everything up to the last slash,
with trailing slashes stripped unless the head consists only of slashes. -/
def posixSplitHead (l : List Char) : List Char :=
  let raw := l.reverse.dropWhile (fun c => !(c == '/'))
  if raw.all (fun c => c == '/') then raw.reverse
  else (raw.dropWhile (fun c => c == '/')).reverse

/-- Ported from `posixpath.basename`: the part after the last slash. -/
def basename (p : String) : String :=
  ⟨posixSplitTail p.data⟩

/-- Ported from `posixpath.dirname`: the part before the last slash, with
trailing slashes stripped unless it is all slashes. -/
def dirname (p : String) : String :=
  ⟨posixSplitHead p.data⟩

/-- Splitting a character list on `'/'`, as Python's `str.split('/')`:
empty segments are kept, and the empty string yields one empty segment. -/
def splitSlashAux : List Char → List Char → List (List Char)
  | [], acc => [acc.reverse]
  | c :: rest, acc =>
    if c == '/' then acc.reverse :: splitSlashAux rest []
    else splitSlashAux rest (c :: acc)

/-- The component-normalisation fold of CPython's `posixpath.normpath`:
drops empty and `.` components and resolves `..` against preceding
components (except at the root, or when only `..` components precede). -/
def normpathComps (initialSlashes : Nat) (comps : List (List Char)) : List (List Char) :=
  comps.foldl
    (fun acc comp =>
      if comp = [] ∨ comp = ['.'] then acc
      else if comp ≠ ['.', '.'] ∨ (initialSlashes = 0 ∧ acc = []) ∨
              acc.getLast? = some ['.', '.'] then acc ++ [comp]
      else if acc ≠ [] then acc.dropLast
      else acc)
    []

/-- Ported from CPython's `posixpath.normpath`: collapse redundant
separators and `.` components and resolve `..` components lexically.
Preserves the CPython treatment of leading slashes (exactly two initial
slashes are kept as two; one, or three and more, become one). -/
def normpath (path : String) : String :=
  if path.data = [] then "."
  else
    let initialSlashes : Nat :=
      match path.data with
      | '/' :: '/' :: '/' :: _ => 1
      | '/' :: '/' :: _ => 2
      | '/' :: _ => 1
      | _ => 0
    let comps := splitSlashAux path.data []
    let newComps := normpathComps initialSlashes comps
    let joined := List.intercalate ['/'] newComps
    let full := List.replicate initialSlashes '/' ++ joined
    if full = [] then "." else ⟨full⟩

/-- Ported from `posixpath.abspath`, with `os.getcwd()` passed explicitly as
`cwd`: a relative path is joined onto `cwd`, and the result is normalised. -/
def abspath (cwd path : String) : String :=
  if isAbsolute path then normpath path
  else normpath (posixpath_join cwd path)

/-- Character-wise longest common prefix of two character lists. -/
def commonPrefixAux : List Char → List Char → List Char
  | a :: as, b :: bs => if a = b then a :: commonPrefixAux as bs else []
  | _, _ => []

/-- Ported from `os.path.commonprefix` applied to a two-element list: the
longest common string prefix, computed character by character (not
component by component). -/
def commonprefix2 (a b : String) : String :=
  ⟨commonPrefixAux a.data b.data⟩

/-- Ported from `lwr.util.is_in_directory`: make both paths absolute, then
return true iff the character-wise common prefix of file and directory
equals the directory. -/
def is_in_directory (cwd file directory : String) : Bool :=
  let d := abspath cwd directory
  let f := abspath cwd file
  commonprefix2 f d == d

/-- The message raised by `verify_is_in_directory` in the source. -/
def containmentError : String :=
  "Attempt to read or write file outside an authorized directory."

/-- Ported from `lwr.util.verify_is_in_directory`: raises (here: returns an
error) when the containment predicate fails. -/
def verify_is_in_directory (cwd path directory : String) : Except String Unit :=
  if is_in_directory cwd path directory then Except.ok ()
  else Except.error containmentError

/-- The set of directories that exist, as a list of paths.  This is the only
part of filesystem state that `get_mapped_file` inspects or mutates. -/
abbrev DirState : Type := List String

/-- Ported from `os.mkdir`: record the new directory.  (The `FileExistsError`
of a pre-existing directory is not modelled; every call site below guards
the call with an existence check, as the source does.) -/
def mkdirOp (fs : DirState) (name : String) : DirState := name :: fs

/-- Ported from CPython's `os.makedirs`, with recursion fuel: create the
missing ancestors of `name`, then `name` itself. -/
def makedirsAux : Nat → DirState → String → DirState
  | 0, fs, name => mkdirOp fs name
  | n + 1, fs, name =>
    let head0 := dirname name
    let tail0 := basename name
    let ht := if tail0.data = [] then (dirname head0, basename head0) else (head0, tail0)
    let fs1 :=
      if ht.1.data ≠ [] ∧ ht.2.data ≠ [] ∧ ht.1 ∉ fs then makedirsAux n fs ht.1
      else fs
    if ht.2 = "." then fs1 else mkdirOp fs1 name

/-- Entry point of the `os.makedirs` model; the fuel bounds the recursion
depth by the length of the path, which strictly shrinks at each step. -/
def makedirs (fs : DirState) (name : String) : DirState :=
  makedirsAux name.data.length fs name

/-- The component-collecting loop of `lwr.util.__posix_to_local_path`:
repeatedly `posixpath.split` the path, pushing each tail onto the front
of the component list, until the path is empty or `/`.  Fuel bounds the
iteration count (the source loop does not terminate on degenerate
all-slash heads such as `//`; with the fuel below the model returns the
components accumulated so far on such inputs, which no caller produces). -/
def posixToLocalAux : Nat → List Char → List String → List String
  | 0, _, acc => acc
  | n + 1, l, acc =>
    if l = [] ∨ l = ['/'] then acc
    else posixToLocalAux n (posixSplitHead l) (⟨posixSplitTail l⟩ :: acc)

/-- Ported from `lwr.util.__posix_to_local_path` with a POSIX
`local_path_module`: split the client path into components with
`posixpath.split` and rejoin them with the host's `join`. -/
def posix_to_local_path (path : String) : String :=
  posixpath_join_list (posixToLocalAux (path.data.length + 1) path.data [])

/-- Ported from `lwr.util.get_mapped_file`, with the filesystem's directory
state passed and returned explicitly and the raised exception modelled as
an error result.  `cwd` models `os.getcwd()` (used by `abspath` inside
the containment check). -/
def get_mapped_file (cwd : String) (fs : DirState) (directory remote_path : String)
    (allow_nested_files : Bool) (mkdir : Bool) : Except String String × DirState :=
  if allow_nested_files = false then
    let name := basename remote_path
    let path := posixpath_join directory name
    (Except.ok path, fs)
  else
    let local_rel_path := posix_to_local_path remote_path
    let local_path := posixpath_join directory local_rel_path
    match verify_is_in_directory cwd local_path directory with
    | Except.error e => (Except.error e, fs)
    | Except.ok _ =>
      let local_directory := dirname local_path
      if mkdir = true ∧ local_directory ∉ fs then
        (Except.ok local_path, makedirs fs local_directory)
      else
        (Except.ok local_path, fs)

/-- File contents of the filesystem, as an association list from path to the
byte sequence stored there. -/
abbrev FileState : Type := List (String × List UInt8)

/-- Reading the bytes stored at a path, when the file exists. -/
def fsRead (fs : FileState) (p : String) : Option (List UInt8) :=
  match fs with
  | [] => none
  | (q, c) :: rest => if q = p then some c else fsRead rest p

/-- Writing (creating or overwriting) the file at a path. -/
def fsWrite (fs : FileState) (p : String) (c : List UInt8) : FileState :=
  (p, c) :: fs

/-- Removing the file at a path, if present. -/
def fsRemove (fs : FileState) (p : String) : FileState :=
  fs.filter (fun e => !(e.1 = p : Bool))

/-- The temporary name used by `atomicish_move`:
`join(dirname(destination), basename(destination) + tmp_suffix)`. -/
def atomicish_temp (destination tmp_suffix : String) : String :=
  posixpath_join (dirname destination) (basename destination ++ tmp_suffix)

/-- Ported from `lwr.util.atomicish_move`: move `source` to a temporary name
in `destination`'s directory (`shutil.move`, possibly a cross-filesystem
copy), then `os.rename` the temporary name onto `destination`.

Failures of the two primitives are injected explicitly, reflecting their
contracts: `moveLeftover = some w` makes the first step fail after having
written the bytes `w` (if any) at the temporary name only — a partially
copied cross-filesystem move touches no path other than the temporary
name — while `renameFails` makes the final `os.rename` fail with no
effect, `rename` being all-or-nothing.  The returned Boolean is true iff
the whole move succeeded. -/
def atomicish_move (fs : FileState) (source destination tmp_suffix : String)
    (moveLeftover : Option (Option (List UInt8))) (renameFails : Bool) :
    Bool × FileState :=
  let temp_destination := atomicish_temp destination tmp_suffix
  match moveLeftover with
  | some w =>
    (false, match w with
            | some c => fsWrite fs temp_destination c
            | none => fs)
  | none =>
    match fsRead fs source with
    | none => (false, fs)
    | some c =>
      let fs1 := fsWrite (fsRemove fs source) temp_destination c
      if renameFails then (false, fs1)
      else (true, fsWrite (fsRemove fs1 temp_destination) destination c)

/-- Ported from `lwr.util.JobDirectory`: the job's sandbox, identified by its
root path. -/
structure JobDirectory where
  job_directory : String
deriving DecidableEq, Repr

/-- Ported from `JobDirectory.__init__`: assert that the job id equals its
own basename (modelled as an error result on failure), then record
`join(staging_directory, job_id)` as the job's directory. -/
def JobDirectory.init (staging_directory job_id : String) : Except String JobDirectory :=
  if job_id = basename job_id then
    Except.ok ⟨posixpath_join staging_directory job_id⟩
  else
    Except.error "AssertionError: job_id is not clean"

/-- Ported from `JobDirectory._sub_dir`. -/
def JobDirectory.sub_dir (jd : JobDirectory) (name : String) : String :=
  posixpath_join jd.job_directory name

/-- Ported from `JobDirectory.working_directory`. -/
def JobDirectory.working_directory (jd : JobDirectory) : String :=
  jd.sub_dir "working"

/-- Ported from `JobDirectory.inputs_directory`. -/
def JobDirectory.inputs_directory (jd : JobDirectory) : String :=
  jd.sub_dir "inputs"

/-- Ported from `JobDirectory.outputs_directory`. -/
def JobDirectory.outputs_directory (jd : JobDirectory) : String :=
  jd.sub_dir "outputs"

/-- Ported from `JobDirectory.configs_directory`. -/
def JobDirectory.configs_directory (jd : JobDirectory) : String :=
  jd.sub_dir "configs"

/-- Ported from `JobDirectory.tool_files_directory`. -/
def JobDirectory.tool_files_directory (jd : JobDirectory) : String :=
  jd.sub_dir "tool_files"

/-- Ported from `JobDirectory.unstructured_files_directory`. -/
def JobDirectory.unstructured_files_directory (jd : JobDirectory) : String :=
  jd.sub_dir "unstructured"

/-- Ported from `JobDirectory._job_file`. -/
def JobDirectory.job_file (jd : JobDirectory) (name : String) : String :=
  posixpath_join jd.job_directory name

/-- Ported from `JobDirectory.read_file`: open and read the control file;
on failure return the supplied default if there is one, otherwise
re-raise (modelled as an error result). -/
def JobDirectory.read_file (fs : FileState) (jd : JobDirectory) (name : String)
    (default : Option (List UInt8)) : Except String (List UInt8) :=
  let path := jd.job_file name
  match fsRead fs path with
  | some contents => Except.ok contents
  | none =>
    match default with
    | some d => Except.ok d
    | none => Except.error "IOError: no such file"

/-- Contents passed to `JobDirectory.write_file`: either text (Python
`six.text_type`) or raw bytes. -/
inductive JobContents where
  | text (s : String)
  | binary (b : List UInt8)

/-- Ported from `JobDirectory.write_file`: encode textual contents as UTF-8,
write the bytes at the control file's path, and return that path. -/
def JobDirectory.write_file (fs : FileState) (jd : JobDirectory) (name : String)
    (contents : JobContents) : String × FileState :=
  let path := jd.job_file name
  let bytes :=
    match contents with
    | JobContents.text s => s.toUTF8.toList
    | JobContents.binary b => b
  (path, fsWrite fs path bytes)

/-! ### The slash-joined form of a component list, used to analyse
`__posix_to_local_path` and `posixpath.join` -/

/-- The characters contributed by the non-leading components of a
slash-separated path: a slash before each component. -/
def tailJoin : List String → List Char
  | [] => []
  | c :: rest => '/' :: c.data ++ tailJoin rest

/-- The characters of a slash-separated path with the given components. -/
def interSlash : List String → List Char
  | [] => []
  | a :: rest => a.data ++ tailJoin rest

/-! ### Helper lemmas about `takeWhile`, `dropWhile` and the path primitives -/

theorem takeWhile_all {α : Type} {p : α → Bool} (l : List α)
    (h : ∀ a ∈ l, p a = true) : l.takeWhile p = l := by
  induction l with
  | nil => rfl
  | cons x xs ih =>
    rw [List.takeWhile_cons_of_pos (h x (by simp))]
    rw [ih (fun a ha => h a (by simp [ha]))]

theorem dropWhile_all {α : Type} {p : α → Bool} (l : List α)
    (h : ∀ a ∈ l, p a = true) : l.dropWhile p = [] := by
  induction l with
  | nil => rfl
  | cons x xs ih =>
    rw [List.dropWhile_cons_of_pos (h x (by simp))]
    exact ih (fun a ha => h a (by simp [ha]))

theorem takeWhile_append_stop {α : Type} {p : α → Bool} (l1 l2 : List α) (b : α)
    (h1 : ∀ a ∈ l1, p a = true) (h2 : p b = false) :
    (l1 ++ b :: l2).takeWhile p = l1 := by
  induction l1 with
  | nil => simp [List.takeWhile_cons, h2]
  | cons x xs ih =>
    rw [List.cons_append, List.takeWhile_cons_of_pos (h1 x (by simp))]
    rw [ih (fun a ha => h1 a (by simp [ha]))]

theorem dropWhile_append_stop {α : Type} {p : α → Bool} (l1 l2 : List α) (b : α)
    (h1 : ∀ a ∈ l1, p a = true) (h2 : p b = false) :
    (l1 ++ b :: l2).dropWhile p = b :: l2 := by
  induction l1 with
  | nil => simp [List.dropWhile_cons, h2]
  | cons x xs ih =>
    rw [List.cons_append, List.dropWhile_cons_of_pos (h1 x (by simp))]
    exact ih (fun a ha => h1 a (by simp [ha]))

theorem posixSplitTail_no_slash (l : List Char) (h : '/' ∉ l) :
    posixSplitTail l = l := by
  unfold posixSplitTail
  rw [takeWhile_all]
  · exact l.reverse_reverse
  · intro a ha
    have hne : a ≠ '/' := fun e => h (e ▸ List.mem_reverse.mp ha)
    simp [hne]

theorem posixSplitHead_no_slash (l : List Char) (h : '/' ∉ l) :
    posixSplitHead l = [] := by
  unfold posixSplitHead
  rw [dropWhile_all]
  · simp
  · intro a ha
    have hne : a ≠ '/' := fun e => h (e ▸ List.mem_reverse.mp ha)
    simp [hne]

theorem posixSplitTail_last (x y : List Char) (hy : '/' ∉ y) :
    posixSplitTail (x ++ '/' :: y) = y := by
  unfold posixSplitTail
  rw [List.reverse_append, List.reverse_cons, List.append_assoc, List.singleton_append]
  rw [takeWhile_append_stop]
  · exact y.reverse_reverse
  · intro a ha
    have hne : a ≠ '/' := fun e => hy (e ▸ List.mem_reverse.mp ha)
    simp [hne]
  · simp

theorem posixSplitHead_last (x y : List Char) (hy : '/' ∉ y) (hxne : x ≠ [])
    (hx : ∀ ch tl, x.reverse = ch :: tl → ch ≠ '/') :
    posixSplitHead (x ++ '/' :: y) = x := by
  unfold posixSplitHead
  rw [List.reverse_append, List.reverse_cons, List.append_assoc, List.singleton_append]
  rw [dropWhile_append_stop]
  · show (if (('/' :: x.reverse).all fun c => c == '/') = true then ('/' :: x.reverse).reverse
      else (('/' :: x.reverse).dropWhile fun c => c == '/').reverse) = x
    cases hrx : x.reverse with
    | nil =>
      exact absurd (by simpa using congrArg List.reverse hrx) hxne
    | cons ch tl =>
      have hch : ch ≠ '/' := hx ch tl hrx
      have hall : (('/' :: ch :: tl).all (fun c => c == '/')) = false := by
        simp [hch]
      rw [hall]
      simp only [Bool.false_eq_true, if_false]
      rw [List.dropWhile_cons_of_pos (by simp), List.dropWhile_cons_of_neg (by simp [hch])]
      rw [← hrx]
      exact x.reverse_reverse
  · intro a ha
    have hne : a ≠ '/' := fun e => hy (e ▸ List.mem_reverse.mp ha)
    simp [hne]
  · simp

theorem basename_no_slash (p : String) : '/' ∉ (basename p).data := by
  intro h
  have h1 : '/' ∈ (p.data.reverse.takeWhile (fun c => !(c == '/'))) :=
    List.mem_reverse.mp h
  have h2 := List.mem_takeWhile_imp h1
  simp at h2

theorem tailJoin_append (as : List String) (c : String) :
    tailJoin (as ++ [c]) = tailJoin as ++ '/' :: c.data := by
  induction as with
  | nil => simp [tailJoin]
  | cons a t ih => simp [tailJoin, ih]

theorem interSlash_append (cs : List String) (c : String) (h : cs ≠ []) :
    interSlash (cs ++ [c]) = interSlash cs ++ '/' :: c.data := by
  cases cs with
  | nil => contradiction
  | cons a t => simp [interSlash, tailJoin_append, List.append_assoc]

theorem interSlash_ne_nil (comps : List String) (hne : comps ≠ [])
    (hv : ∀ c ∈ comps, c.data ≠ [] ∧ '/' ∉ c.data) :
    interSlash comps ≠ [] := by
  cases comps with
  | nil => contradiction
  | cons a t =>
    have ha := (hv a (by simp)).1
    show a.data ++ tailJoin t ≠ []
    intro h
    exact ha (List.append_eq_nil.mp h).1

theorem interSlash_rev_head (comps : List String) (hne : comps ≠ [])
    (hv : ∀ c ∈ comps, c.data ≠ [] ∧ '/' ∉ c.data) :
    ∀ ch tl, (interSlash comps).reverse = ch :: tl → ch ≠ '/' := by
  induction comps using List.reverseRecOn with
  | nil => exact absurd rfl hne
  | append_singleton cs c _ =>
    obtain ⟨hcne, hcns⟩ := hv c (by simp)
    obtain ⟨ch0, tl0, hrev⟩ : ∃ ch0 tl0, c.data.reverse = ch0 :: tl0 := by
      cases hr : c.data.reverse with
      | nil => exact absurd (by simpa using congrArg List.reverse hr) hcne
      | cons ch0 tl0 => exact ⟨ch0, tl0, rfl⟩
    have hch0 : ch0 ≠ '/' := by
      intro e
      exact hcns (List.mem_reverse.mp (hrev ▸ e ▸ List.mem_cons_self ch0 tl0))
    by_cases hcs : cs = []
    · subst hcs
      intro ch tl h
      have : c.data.reverse = ch :: tl := by
        simpa [interSlash, tailJoin] using h
      rw [this] at hrev
      intro e
      exact hch0 (by injection hrev with h1 _; rw [← h1, e])
    · intro ch tl h
      rw [interSlash_append cs c hcs, List.reverse_append, List.reverse_cons, hrev] at h
      have : ch0 = ch := by
        injection h
      intro e
      exact hch0 (by rw [this, e])

theorem posixToLocalAux_succ (n : Nat) (l : List Char) (acc : List String)
    (h1 : l ≠ []) (h2 : l ≠ ['/']) :
    posixToLocalAux (n + 1) l acc =
      posixToLocalAux n (posixSplitHead l) (⟨posixSplitTail l⟩ :: acc) := by
  conv_lhs => rw [posixToLocalAux]
  rw [if_neg (by simp [h1, h2])]

theorem posixToLocalAux_nil (n : Nat) (acc : List String) :
    posixToLocalAux (n + 1) [] acc = acc := by
  conv_lhs => rw [posixToLocalAux]
  rw [if_pos (by simp)]

theorem posixToLocalAux_interSlash (comps : List String) :
    (∀ c ∈ comps, c.data ≠ [] ∧ '/' ∉ c.data) → comps ≠ [] →
    ∀ (acc : List String) (fuel : Nat), (interSlash comps).length < fuel →
    posixToLocalAux fuel (interSlash comps) acc = comps ++ acc := by
  induction comps using List.reverseRecOn with
  | nil => intro _ h; exact absurd rfl h
  | append_singleton cs c ih =>
    intro hv _ acc fuel hfuel
    obtain ⟨hcne, hcns⟩ := hv c (by simp)
    have hlen : 1 ≤ c.data.length := by
      cases hd : c.data with
      | nil => exact absurd hd hcne
      | cons _ _ => simp [hd]
    by_cases hcs : cs = []
    · subst hcs
      have hi : interSlash ([] ++ [c]) = c.data := by
        show interSlash [c] = c.data
        show c.data ++ tailJoin [] = c.data
        simp [tailJoin]
      rw [hi] at hfuel ⊢
      obtain ⟨n, rfl⟩ : ∃ n, fuel = n + 1 := ⟨fuel - 1, by omega⟩
      rw [posixToLocalAux_succ n c.data acc hcne (by
        intro e
        exact hcns (by rw [e]; simp))]
      rw [posixSplitTail_no_slash c.data hcns, posixSplitHead_no_slash c.data hcns]
      obtain ⟨m, rfl⟩ : ∃ m, n = m + 1 := ⟨n - 1, by omega⟩
      rw [posixToLocalAux_nil]
      show c :: acc = ([] ++ [c]) ++ acc
      simp
    · have hv' : ∀ d ∈ cs, d.data ≠ [] ∧ '/' ∉ d.data := fun d hd => hv d (by simp [hd])
      have hi := interSlash_append cs c hcs
      rw [hi] at hfuel ⊢
      obtain ⟨n, rfl⟩ : ∃ n, fuel = n + 1 := ⟨fuel - 1, by omega⟩
      have hne1 : interSlash cs ++ '/' :: c.data ≠ [] := by simp
      have hne2 : interSlash cs ++ '/' :: c.data ≠ ['/'] := by
        intro e
        have hl : (interSlash cs ++ '/' :: c.data).length = 1 := by rw [e]; rfl
        rw [List.length_append, List.length_cons] at hl
        omega
      rw [posixToLocalAux_succ n _ acc hne1 hne2]
      rw [posixSplitTail_last _ _ hcns]
      rw [posixSplitHead_last _ _ hcns (interSlash_ne_nil cs hcs hv')
        (interSlash_rev_head cs hcs hv')]
      have hrec : posixToLocalAux n (interSlash cs) (⟨c.data⟩ :: acc) =
          cs ++ (⟨c.data⟩ :: acc) := by
        apply ih hv' hcs
        have hfl := hfuel
        simp [List.length_append] at hfl
        omega
      rw [hrec]
      show cs ++ (c :: acc) = (cs ++ [c]) ++ acc
      simp

theorem foldl_join_chars (rest : List String) :
    ∀ (a : String), a.data ≠ [] →
    (∀ ch tl, a.data.reverse = ch :: tl → ch ≠ '/') →
    (∀ c ∈ rest, c.data ≠ [] ∧ '/' ∉ c.data) →
    List.foldl posixpath_join a rest = ⟨a.data ++ tailJoin rest⟩ := by
  induction rest with
  | nil =>
    intro a _ _ _
    show a = ⟨a.data ++ tailJoin []⟩
    rw [show tailJoin [] = [] from rfl, List.append_nil]
  | cons b t ih =>
    intro a hane harev hv
    obtain ⟨hbne, hbns⟩ := hv b (by simp)
    obtain ⟨ch0, tl0, hrev0⟩ : ∃ ch0 tl0, b.data.reverse = ch0 :: tl0 := by
      cases hr : b.data.reverse with
      | nil => exact absurd (by simpa using congrArg List.reverse hr) hbne
      | cons ch0 tl0 => exact ⟨ch0, tl0, rfl⟩
    have hch0 : ch0 ≠ '/' := by
      intro e
      exact hbns (List.mem_reverse.mp (hrev0 ▸ e ▸ List.mem_cons_self ch0 tl0))
    have habs : isAbsolute b = false := by
      unfold isAbsolute
      cases hd : b.data with
      | nil => rfl
      | cons ch tlb =>
        have hch : ch ≠ '/' := by
          intro e
          exact hbns (by rw [hd, e]; simp)
        simp [hch]
    have hlast : lastIsSlash a.data = false := by
      unfold lastIsSlash
      cases hr : a.data.reverse with
      | nil => rfl
      | cons ch tl =>
        have := harev ch tl hr
        simp [this]
    have hjoin : posixpath_join a b = ⟨a.data ++ '/' :: b.data⟩ := by
      simp [posixpath_join, habs, hlast, hane]
    rw [List.foldl_cons, hjoin]
    rw [ih ⟨a.data ++ '/' :: b.data⟩ (by simp)
      (by
        intro ch tl h
        rw [show (⟨a.data ++ '/' :: b.data⟩ : String).data = a.data ++ '/' :: b.data from rfl] at h
        rw [List.reverse_append, List.reverse_cons, hrev0] at h
        simp only [List.cons_append] at h
        intro e
        exact hch0 (by injection h with h1 _; rw [h1, e]))
      (fun c hc => hv c (by simp [hc]))]
    show (⟨(a.data ++ '/' :: b.data) ++ tailJoin t⟩ : String) = ⟨a.data ++ tailJoin (b :: t)⟩
    rw [show tailJoin (b :: t) = '/' :: b.data ++ tailJoin t from rfl]
    rw [List.append_assoc]

theorem posixpath_join_list_interSlash (comps : List String) (hne : comps ≠ [])
    (hv : ∀ c ∈ comps, c.data ≠ [] ∧ '/' ∉ c.data) :
    posixpath_join_list comps = ⟨interSlash comps⟩ := by
  cases comps with
  | nil => exact absurd rfl hne
  | cons a rest =>
    obtain ⟨hane, hans⟩ := hv a (by simp)
    show List.foldl posixpath_join a rest = ⟨interSlash (a :: rest)⟩
    rw [foldl_join_chars rest a hane
      (by
        intro ch tl h e
        exact hans (List.mem_reverse.mp (h ▸ e ▸ List.mem_cons_self ch tl)))
      (fun c hc => hv c (by simp [hc]))]
    rfl

theorem intercalate_go_data (as : List String) :
    ∀ acc : String, (String.intercalate.go acc "/" as).data = acc.data ++ tailJoin as := by
  induction as with
  | nil =>
    intro acc
    show acc.data = acc.data ++ tailJoin []
    rw [show tailJoin [] = [] from rfl, List.append_nil]
  | cons a t ih =>
    intro acc
    show (String.intercalate.go (acc ++ "/" ++ a) "/" t).data = acc.data ++ tailJoin (a :: t)
    rw [ih (acc ++ "/" ++ a)]
    rw [show tailJoin (a :: t) = '/' :: a.data ++ tailJoin t from rfl]
    rw [String.data_append, String.data_append]
    rw [show ("/" : String).data = ['/'] from rfl]
    simp [List.append_assoc]

theorem intercalate_data (comps : List String) :
    (String.intercalate "/" comps).data = interSlash comps := by
  cases comps with
  | nil => rfl
  | cons a t =>
    show (String.intercalate.go a "/" t).data = interSlash (a :: t)
    rw [intercalate_go_data t a]
    rfl

theorem intercalate_eq_mk (comps : List String) :
    String.intercalate "/" comps = ⟨interSlash comps⟩ := by
  calc String.intercalate "/" comps = ⟨(String.intercalate "/" comps).data⟩ := rfl
    _ = ⟨interSlash comps⟩ := by rw [intercalate_data]

/-! ### Helper lemmas about the file-contents state -/

theorem fsRead_fsWrite_self (fs : FileState) (p : String) (c : List UInt8) :
    fsRead (fsWrite fs p c) p = some c := by
  show fsRead ((p, c) :: fs) p = some c
  unfold fsRead
  rw [if_pos rfl]

theorem fsRead_fsWrite_ne (fs : FileState) (p q : String) (c : List UInt8)
    (h : q ≠ p) :
    fsRead (fsWrite fs p c) q = fsRead fs q := by
  show fsRead ((p, c) :: fs) q = fsRead fs q
  conv_lhs => rw [fsRead]
  rw [if_neg (Ne.symm h)]

theorem fsRead_fsRemove_self (fs : FileState) (p : String) :
    fsRead (fsRemove fs p) p = none := by
  induction fs with
  | nil => rfl
  | cons e rest ih =>
    show fsRead (List.filter _ (e :: rest)) p = none
    rw [List.filter_cons]
    by_cases he : e.1 = p
    · rw [if_neg (by simp [he])]
      exact ih
    · rw [if_pos (by simp [he])]
      conv_lhs => rw [fsRead]
      rw [if_neg he]
      exact ih

theorem fsRead_fsRemove_ne (fs : FileState) (p q : String) (h : q ≠ p) :
    fsRead (fsRemove fs p) q = fsRead fs q := by
  induction fs with
  | nil => rfl
  | cons e rest ih =>
    show fsRead (List.filter _ (e :: rest)) q = fsRead (e :: rest) q
    rw [List.filter_cons]
    by_cases he : e.1 = p
    · rw [if_neg (by simp [he])]
      show fsRead (fsRemove rest p) q = fsRead (e :: rest) q
      rw [ih]
      conv_rhs => rw [fsRead]
      rw [if_neg (by rw [he]; exact Ne.symm h)]
    · rw [if_pos (by simp [he])]
      by_cases heq : e.1 = q
      · conv_lhs => rw [fsRead]
        conv_rhs => rw [fsRead]
        rw [if_pos heq, if_pos heq]
      · conv_lhs => rw [fsRead]
        conv_rhs => rw [fsRead]
        rw [if_neg heq, if_neg heq]
        exact ih

/-! ### Claim theorems -/

/-- C1 counterexample: the claim asserts `is_in_directory("/a/bEvil", "/a/b")`
is false, but the source's character-wise common-prefix comparison accepts
the sibling directory, so the predicate evaluates to true. -/
theorem is_in_directory_sibling_accepted :
    is_in_directory "/" "/a/bEvil" "/a/b" = true := by decide

/-- C1 (amended): for absolute paths, `is_in_directory` holds for a path that
lies under the root as a path component (`/a/b/c` under `/a/b`), but —
being a textual common-prefix comparison — it also holds for a sibling
path whose name merely extends the root's name as a string prefix
(`/a/bEvil` under `/a/b`). -/
theorem is_in_directory_common_prefix_behavior :
    is_in_directory "/" "/a/b/c" "/a/b" = true ∧
    is_in_directory "/" "/a/bEvil" "/a/b" = true := by
  exact ⟨by decide, by decide⟩

/-- C2 evaluation: `JobDirectory.__init__`'s assertion
`job_id == basename(job_id)` passes for the traversal component `..`
(whose basename is itself), so `JobDirectory("/staging", "..")` is
constructed with directory `/staging/..` — a path that the module's own
containment predicate places outside the staging root.  A job id with a
separator is rejected and a clean job id is accepted, as the claim says. -/
theorem jobdirectory_accepts_dotdot :
    JobDirectory.init "/staging" ".." = Except.ok ⟨"/staging/.."⟩ ∧
    is_in_directory "/" "/staging/.." "/staging" = false ∧
    JobDirectory.init "/staging" "a/b" =
      Except.error "AssertionError: job_id is not clean" ∧
    JobDirectory.init "/staging" "job1" = Except.ok ⟨"/staging/job1"⟩ := by
  refine ⟨rfl, by decide, rfl, rfl⟩

/-- C3: in nested mode, when the candidate path built from the client path
fails the containment check, `get_mapped_file` fails with the containment
error and the directory state is returned unchanged — the check runs
before any parent-directory creation, so no filesystem mutation occurs. -/
theorem get_mapped_file_rejects_escape (cwd : String) (fs : DirState)
    (directory remote_path : String) (mkdir : Bool)
    (h : is_in_directory cwd
      (posixpath_join directory (posix_to_local_path remote_path)) directory = false) :
    get_mapped_file cwd fs directory remote_path true mkdir =
      (Except.error containmentError, fs) := by
  unfold get_mapped_file
  rw [if_neg (by simp)]
  simp only [verify_is_in_directory, h, Bool.false_eq_true, if_false]

/-- C3 witness: the traversal path `../../etc/passwd` under `/staging/1`
fails containment and produces the error with no directory created. -/
theorem get_mapped_file_rejects_escape_witness :
    get_mapped_file "/" ["/staging/1"] "/staging/1" "../../etc/passwd" true true =
      (Except.error containmentError, ["/staging/1"]) :=
  get_mapped_file_rejects_escape "/" ["/staging/1"] "/staging/1" "../../etc/passwd"
    true (by decide)

/-- C4 counterexample: with `allow_nested_files = false` the client path `..`
is mapped to `root/..`, which the module's own containment predicate
places outside the root — refuting "the result always lies inside
sandboxRoot". -/
theorem get_mapped_file_flat_dotdot_escapes :
    (get_mapped_file "/" ["/a/b"] "/a/b" ".." false true).1 =
      Except.ok "/a/b/.." ∧
    is_in_directory "/" "/a/b/.." "/a/b" = false := by
  exact ⟨rfl, by decide⟩

/-- C4 (amended): with `allow_nested_files = false`, `get_mapped_file`
returns the root joined with the basename (final component) of the client
path and leaves the filesystem untouched; the basename never contains a
separator, so client-supplied directory structure is discarded — but a
client path whose basename is `..` still yields a path outside the root
(see the counterexample), so the result does not always lie inside it. -/
theorem get_mapped_file_flat_basename (cwd : String) (fs : DirState)
    (directory remote_path : String) (mkdir : Bool) :
    get_mapped_file cwd fs directory remote_path false mkdir =
      (Except.ok (posixpath_join directory (basename remote_path)), fs) ∧
    '/' ∉ (basename remote_path).data :=
  ⟨rfl, basename_no_slash remote_path⟩

/-- C5: the nested-mode translation splits the client path on `/` and rejoins
it with the host separator component by component, preserving every
component — including `..` — without collapsing or normalising: for any
non-empty list of non-empty, slash-free components, the translation is
the identity on their slash-joined form.  Concretely,
`get_mapped_file(root, "a/b/c.txt", nested, mkdir)` returns
`root/a/b/c.txt` and creates the missing `root/a` and `root/a/b`. -/
theorem posix_translation_preserves_components (comps : List String)
    (hne : comps ≠ []) (hv : ∀ c ∈ comps, c.data ≠ [] ∧ '/' ∉ c.data) :
    posix_to_local_path (String.intercalate "/" comps) =
      String.intercalate "/" comps ∧
    get_mapped_file "/" ["/staging/1"] "/staging/1" "a/b/c.txt" true true =
      (Except.ok "/staging/1/a/b/c.txt",
        ["/staging/1/a/b", "/staging/1/a", "/staging/1"]) := by
  constructor
  · unfold posix_to_local_path
    rw [show (String.intercalate "/" comps).data = interSlash comps from
      intercalate_data comps]
    rw [posixToLocalAux_interSlash comps hv hne []
      ((interSlash comps).length + 1) (by omega)]
    rw [List.append_nil]
    rw [posixpath_join_list_interSlash comps hne hv]
    exact (intercalate_eq_mk comps).symm
  · rfl

/-- C5 witness: the components `a`, `..`, `c.txt` are preserved verbatim by
the translation, `..` included. -/
theorem posix_translation_preserves_components_witness :
    posix_to_local_path (String.intercalate "/" ["a", "..", "c.txt"]) =
      String.intercalate "/" ["a", "..", "c.txt"] :=
  (posix_translation_preserves_components ["a", "..", "c.txt"]
    (by decide) (by decide)).1

/-- C6: `atomicish_move` is two-phase — move to a temporary name in the
destination's directory, then rename onto the destination.  If the first
step fails (even after partially writing the temporary file), the
destination's contents are unchanged; if the final rename fails, the
temporary file is left behind with the full source contents and the
destination is unchanged; on success the destination holds exactly the
source's contents and both the source and the temporary file are gone. -/
theorem atomicish_move_two_phase (fs : FileState) (source destination : String)
    (c : List UInt8)
    (h1 : atomicish_temp destination "_TMP" ≠ destination)
    (h2 : source ≠ destination)
    (h3 : fsRead fs source = some c) :
    (∀ w, (atomicish_move fs source destination "_TMP" (some w) false).1 = false ∧
      fsRead (atomicish_move fs source destination "_TMP" (some w) false).2 destination =
        fsRead fs destination) ∧
    ((atomicish_move fs source destination "_TMP" none true).1 = false ∧
     fsRead (atomicish_move fs source destination "_TMP" none true).2
        (atomicish_temp destination "_TMP") = some c ∧
     fsRead (atomicish_move fs source destination "_TMP" none true).2 destination =
        fsRead fs destination) ∧
    ((atomicish_move fs source destination "_TMP" none false).1 = true ∧
     fsRead (atomicish_move fs source destination "_TMP" none false).2 destination =
        some c ∧
     fsRead (atomicish_move fs source destination "_TMP" none false).2 source = none ∧
     fsRead (atomicish_move fs source destination "_TMP" none false).2
        (atomicish_temp destination "_TMP") = none) := by
  refine ⟨?_, ⟨?_, ?_, ?_⟩, ⟨?_, ?_, ?_, ?_⟩⟩
  · intro w
    cases w with
    | none => exact ⟨rfl, rfl⟩
    | some bytes =>
      refine ⟨rfl, ?_⟩
      show fsRead (fsWrite fs (atomicish_temp destination "_TMP") bytes) destination =
        fsRead fs destination
      exact fsRead_fsWrite_ne fs _ destination bytes (Ne.symm h1)
  · simp only [atomicish_move, h3, if_true, Bool.false_eq_true, if_false]
  · simp only [atomicish_move, h3, if_true, Bool.false_eq_true, if_false]
    exact fsRead_fsWrite_self _ _ _
  · simp only [atomicish_move, h3, if_true, Bool.false_eq_true, if_false]
    rw [fsRead_fsWrite_ne _ _ _ _ (Ne.symm h1)]
    exact fsRead_fsRemove_ne fs source destination (Ne.symm h2)
  · simp only [atomicish_move, h3, if_true, Bool.false_eq_true, if_false]
  · simp only [atomicish_move, h3, if_true, Bool.false_eq_true, if_false]
    exact fsRead_fsWrite_self _ _ _
  · simp only [atomicish_move, h3, if_true, Bool.false_eq_true, if_false]
    rw [fsRead_fsWrite_ne _ _ _ _ h2]
    by_cases hst : source = atomicish_temp destination "_TMP"
    · rw [← hst]
      exact fsRead_fsRemove_self _ _
    · rw [fsRead_fsRemove_ne _ _ _ hst]
      rw [fsRead_fsWrite_ne _ _ _ _ hst]
      exact fsRead_fsRemove_self _ _
  · simp only [atomicish_move, h3, if_true, Bool.false_eq_true, if_false]
    rw [fsRead_fsWrite_ne _ _ _ _ h1]
    exact fsRead_fsRemove_self _ _

/-- C6 witness: moving `/tmp/src` onto `/data/out` with contents `[1, 2]`;
on success the destination holds the bytes and the temporary file
`/data/out_TMP` is gone. -/
theorem atomicish_move_two_phase_witness :
    fsRead (atomicish_move [("/tmp/src", [1, 2])] "/tmp/src" "/data/out" "_TMP"
      none false).2 "/data/out" = some [1, 2] :=
  (atomicish_move_two_phase [("/tmp/src", [1, 2])] "/tmp/src" "/data/out" [1, 2]
    (by decide) (by decide) (by decide)).2.2.2.1

/-- C7: `read_file` returns the file's full contents when the control file
exists; when it is absent and a default was supplied it returns that
default; and when it is absent with no default it fails with the
file-not-found error. -/
theorem read_file_default_behavior (fs : FileState) (jd : JobDirectory)
    (name : String) :
    (∀ c, fsRead fs (jd.job_file name) = some c →
      ∀ d, JobDirectory.read_file fs jd name d = Except.ok c) ∧
    (fsRead fs (jd.job_file name) = none →
      ∀ dv, JobDirectory.read_file fs jd name (some dv) = Except.ok dv) ∧
    (fsRead fs (jd.job_file name) = none →
      JobDirectory.read_file fs jd name none =
        Except.error "IOError: no such file") := by
  refine ⟨?_, ?_, ?_⟩
  · intro c hc d
    simp only [JobDirectory.read_file, hc]
  · intro hc dv
    simp only [JobDirectory.read_file, hc]
  · intro hc
    simp only [JobDirectory.read_file, hc]

/-- C7 witness: a present control file is read back; the same lookup applied
through the theorem at a concrete job directory and file name. -/
theorem read_file_default_behavior_witness :
    JobDirectory.read_file [("/staging/1/status", [99])] ⟨"/staging/1"⟩ "status"
      none = Except.ok [99] :=
  (read_file_default_behavior [("/staging/1/status", [99])] ⟨"/staging/1"⟩
    "status").1 [99] (by decide) none

/-- C8: each of the six subarea accessors returns the job root joined with
its fixed subdirectory name; the accessors are pure path computations, so
repeated calls cannot fail and always return the same path. -/
theorem jobdirectory_subarea_paths (jd : JobDirectory) :
    jd.working_directory = posixpath_join jd.job_directory "working" ∧
    jd.inputs_directory = posixpath_join jd.job_directory "inputs" ∧
    jd.outputs_directory = posixpath_join jd.job_directory "outputs" ∧
    jd.configs_directory = posixpath_join jd.job_directory "configs" ∧
    jd.tool_files_directory = posixpath_join jd.job_directory "tool_files" ∧
    jd.unstructured_files_directory = posixpath_join jd.job_directory "unstructured" :=
  ⟨rfl, rfl, rfl, rfl, rfl, rfl⟩

/-- C9: writing textual contents to a control file stores exactly the UTF-8
encoding of the text, reading the file straight back returns those bytes,
and `write_file` returns the control file's path directly under the job
root. -/
theorem write_then_read_roundtrip (fs : FileState) (jd : JobDirectory)
    (name : String) (s : String) :
    (JobDirectory.write_file fs jd name (JobContents.text s)).1 = jd.job_file name ∧
    JobDirectory.read_file (JobDirectory.write_file fs jd name (JobContents.text s)).2
      jd name none = Except.ok s.toUTF8.toList := by
  constructor
  · rfl
  · show JobDirectory.read_file (fsWrite fs (jd.job_file name) s.toUTF8.toList)
      jd name none = Except.ok s.toUTF8.toList
    simp only [JobDirectory.read_file, fsRead_fsWrite_self]

/-- C10: with `allow_nested_files = false`, `get_mapped_file` performs no
filesystem mutation at all — the directory state is returned unchanged
even when the `mkdir` flag is true. -/
theorem get_mapped_file_flat_no_mutation (cwd : String) (fs : DirState)
    (directory remote_path : String) (mkdir : Bool) :
    (get_mapped_file cwd fs directory remote_path false mkdir).2 = fs := rfl
